import Mathlib

/-!
Verification of the Pregel step engine (`langgraph/pregel/algo.py`).

The Python functions `apply_writes`, `should_interrupt`, `local_write`,
`prepare_single_task` (PULL branch), `_proc_input` and `_uuid5_str` are
shallowly embedded below.  Python dicts are modelled as association lists
with first-occurrence lookup and in-place update (`alGet` / `alSet`), which
matches dict semantics on duplicate-free key lists; channel objects are
records of a state value together with `update` / `consume` / `read`
functions (the `BaseChannel` capability set, modelled from the spec since
`channels/base.py` is not part of the sources); channel versions are the
default integer versions (`increment`), totally ordered as required.
-/

namespace Pregel

/-- Lookup in an association list: first occurrence wins (Python dict `get`). -/
def alGet {β : Type _} (m : List (String × β)) (k : String) : Option β :=
  match m with
  | [] => none
  | (k', v) :: rest => if k' = k then some v else alGet rest k

/-- Update of an association list: replace the first binding of `k` in place,
or append a new binding at the end (Python dict `d[k] = v` semantics). -/
def alSet {β : Type _} (m : List (String × β)) (k : String) (v : β) :
    List (String × β) :=
  match m with
  | [] => [(k, v)]
  | (k', v') :: rest =>
      if k' = k then (k, v) :: rest else (k', v') :: alSet rest k v

theorem alGet_alSet {β : Type _} (m : List (String × β)) (k k' : String) (v : β) :
    alGet (alSet m k v) k' = if k = k' then some v else alGet m k' := by
  induction m with
  | nil => simp only [alSet, alGet]
  | cons p rest ih =>
      obtain ⟨a, b⟩ := p
      simp only [alSet]
      by_cases ha : a = k
      · subst ha
        simp only [if_pos rfl, alGet]
        by_cases h : a = k' <;> simp [h]
      · simp only [if_neg ha, alGet, ih]
        by_cases h1 : a = k'
        · by_cases h2 : k = k'
          · exact absurd (h1.trans h2.symm) ha
          · simp [h1, h2]
        · simp [h1]

theorem alGet_alSet_same {β : Type _} (m : List (String × β)) (k : String) (v : β) :
    alGet (alSet m k v) k = some v := by
  simp [alGet_alSet]

theorem alGet_alSet_ne {β : Type _} (m : List (String × β)) {k k' : String} (v : β)
    (h : k ≠ k') : alGet (alSet m k v) k' = alGet m k' := by
  simp [alGet_alSet, h]

/-- Keys of an association list, in order. -/
def alKeys {β : Type _} (m : List (String × β)) : List String := m.map Prod.fst

theorem alKeys_alSet_of_mem {β : Type _} (m : List (String × β)) (k : String) (v : β)
    (h : (alGet m k).isSome) : alKeys (alSet m k v) = alKeys m := by
  induction m with
  | nil => simp [alGet] at h
  | cons p rest ih =>
      obtain ⟨a, b⟩ := p
      by_cases ha : a = k
      · subst ha
        simp [alSet, alKeys]
      · simp [alGet, ha] at h
        simp [alSet, alKeys, ha] at ih ⊢
        exact ih h

end Pregel

namespace Pregel

/-!
Total comparison functions used to embed Python's `sorted`.  Python compares
tuples lexicographically, strings by code point, and integers numerically;
comparisons between values of different types raise `TypeError` and never
occur in the engine's own sort keys, so the embedding completes the order
across constructor tags (a modelling choice that is inert on the comparisons
the source actually performs).
-/

/-- Three-way comparison on integers. -/
def icmp (a b : Int) : Ordering :=
  if a < b then .lt else if b < a then .gt else .eq

/-- Three-way comparison on characters, by code point. -/
def ccmp (a b : Char) : Ordering := icmp a.toNat b.toNat

/-- Lexicographic comparison of lists given an element comparison
(Python tuple/list/str comparison: first difference decides, else length). -/
def lexCmp {α : Type _} (f : α → α → Ordering) : List α → List α → Ordering
  | [], [] => .eq
  | [], _ :: _ => .lt
  | _ :: _, [] => .gt
  | a :: as, b :: bs =>
      match f a b with
      | .eq => lexCmp f as bs
      | o => o

theorem icmp_lt_iff (a b : Int) : icmp a b = .lt ↔ a < b := by
  unfold icmp
  split_ifs with h1 h2 <;> simp [h1]

theorem icmp_gt_iff (a b : Int) : icmp a b = .gt ↔ b < a := by
  unfold icmp
  split_ifs with h1 h2
  · simp
    omega
  · simpa using h2
  · simp
    omega

theorem icmp_eq_iff (a b : Int) : icmp a b = .eq ↔ a = b := by
  unfold icmp
  split_ifs with h1 h2 <;> simp <;> omega

theorem icmp_swap (a b : Int) : icmp a b = (icmp b a).swap := by
  rcases lt_trichotomy a b with h | h | h
  · rw [(icmp_lt_iff a b).mpr h, (icmp_gt_iff b a).mpr h]
    rfl
  · subst h
    rw [(icmp_eq_iff a a).mpr rfl]
    rfl
  · rw [(icmp_gt_iff a b).mpr h, (icmp_lt_iff b a).mpr h]
    rfl

theorem icmp_lt_trans {a b c : Int} (h1 : icmp a b = .lt) (h2 : icmp b c = .lt) :
    icmp a c = .lt := by
  rw [icmp_lt_iff] at *
  omega

theorem ccmp_swap (a b : Char) : ccmp a b = (ccmp b a).swap := by
  simpa [ccmp] using icmp_swap a.toNat b.toNat

theorem ccmp_eq_left (a b : Char) (h : ccmp a b = .eq) (c : Char) :
    ccmp a c = ccmp b c := by
  unfold ccmp at *
  rw [icmp_eq_iff] at h
  rw [h]

theorem ccmp_lt_trans {a b c : Char} (h1 : ccmp a b = .lt) (h2 : ccmp b c = .lt) :
    ccmp a c = .lt := icmp_lt_trans h1 h2

theorem lexCmp_swap {α : Type _} (f : α → α → Ordering)
    (hf : ∀ a b, f a b = (f b a).swap) :
    ∀ x y : List α, lexCmp f x y = (lexCmp f y x).swap := by
  intro x
  induction x with
  | nil => intro y; cases y <;> simp [lexCmp, Ordering.swap]
  | cons a as ih =>
      intro y
      cases y with
      | nil => simp [lexCmp, Ordering.swap]
      | cons b bs =>
          simp only [lexCmp]
          rw [hf a b]
          cases h : f b a <;> simp [Ordering.swap, ih bs]

theorem lexCmp_eq_left {α : Type _} (f : α → α → Ordering)
    (hf : ∀ a b, f a b = .eq → ∀ c, f a c = f b c) :
    ∀ x y : List α, lexCmp f x y = .eq → ∀ z, lexCmp f x z = lexCmp f y z := by
  intro x
  induction x with
  | nil =>
      intro y hy z
      cases y with
      | nil => rfl
      | cons b bs => simp [lexCmp] at hy
  | cons a as ih =>
      intro y hy z
      cases y with
      | nil => simp [lexCmp] at hy
      | cons b bs =>
          simp only [lexCmp] at hy ⊢
          cases hab : f a b with
          | eq =>
              have has : lexCmp f as bs = .eq := by simpa [hab] using hy
              cases z with
              | nil => rfl
              | cons c cs =>
                  simp only [lexCmp]
                  rw [hf a b hab c]
                  cases hbc : f b c with
                  | eq => exact ih bs has cs
                  | lt => rfl
                  | gt => rfl
          | lt => simp [hab] at hy
          | gt => simp [hab] at hy

theorem lexCmp_lt_trans {α : Type _} (f : α → α → Ordering)
    (hswap : ∀ a b, f a b = (f b a).swap)
    (heq : ∀ a b, f a b = .eq → ∀ c, f a c = f b c)
    (hlt : ∀ a b c, f a b = .lt → f b c = .lt → f a c = .lt) :
    ∀ x y z : List α, lexCmp f x y = .lt → lexCmp f y z = .lt →
      lexCmp f x z = .lt := by
  intro x
  induction x with
  | nil =>
      intro y z h1 h2
      cases z with
      | nil =>
          cases y with
          | nil => simp [lexCmp] at h1
          | cons b bs => simp [lexCmp] at h2
      | cons c cs => simp [lexCmp]
  | cons a as ih =>
      intro y z h1 h2
      cases y with
      | nil => simp [lexCmp] at h1
      | cons b bs =>
          cases z with
          | nil => simp [lexCmp] at h2
          | cons c cs =>
              simp only [lexCmp] at h1 h2 ⊢
              cases hab : f a b with
              | lt =>
                  cases hbc : f b c with
                  | lt => simp [hlt a b c hab hbc]
                  | eq =>
                      have hcb : f c b = .eq := by
                        have h := hswap b c
                        rw [hbc] at h
                        cases hh : f c b
                        · rw [hh] at h
                          exact absurd h (by decide)
                        · rfl
                        · rw [hh] at h
                          exact absurd h (by decide)
                      have hac : f a c = f a b := by
                        rw [hswap a c, heq c b hcb a, ← hswap a b]
                      rw [hac, hab]
                  | gt => simp [hab, hbc] at h2
              | eq =>
                  have hac : f a c = f b c := heq a b hab c
                  cases hbc : f b c with
                  | lt => simp [hac, hbc]
                  | eq =>
                      rw [hac, hbc]
                      exact ih bs cs (by simpa [hab] using h1)
                        (by simpa [hbc] using h2)
                  | gt => simp [hbc] at h2
              | gt => simp [hab] at h1

end Pregel

namespace Pregel

/-- Path elements of a task path: `tuple[Union[str, int, tuple], ...]`. -/
inductive PElem where
  | pstr : String → PElem
  | pint : Int → PElem
  | ptup : List PElem → PElem

/-- Comparison tokens: a path element serializes to a token stream so that
lexicographic token comparison coincides with Python's recursive tuple
comparison on the comparisons Python defines. -/
inductive Tok where
  | tclose : Tok
  | topen : Tok
  | tint : Int → Tok
  | tstr : String → Tok

/-- Comparison on strings by code points (Python `str` comparison). -/
def scmp (a b : String) : Ordering := lexCmp ccmp a.data b.data

/-- Comparison on tokens.  `tclose` is minimal so that a shorter tuple
compares below its extensions, as in Python. -/
def tcmp : Tok → Tok → Ordering
  | .tclose, .tclose => .eq
  | .tclose, _ => .lt
  | _, .tclose => .gt
  | .topen, .topen => .eq
  | .topen, _ => .lt
  | _, .topen => .gt
  | .tint m, .tint n => icmp m n
  | .tint _, .tstr _ => .lt
  | .tstr _, .tint _ => .gt
  | .tstr a, .tstr b => scmp a b

mutual

/-- Serialize a path element into comparison tokens. -/
def ser : PElem → List Tok
  | .pstr a => [.tstr a]
  | .pint n => [.tint n]
  | .ptup l => .topen :: serList l ++ [.tclose]

/-- Serialize a list of path elements. -/
def serList : List PElem → List Tok
  | [] => []
  | x :: xs => ser x ++ serList xs

end

theorem scmp_swap (a b : String) : scmp a b = (scmp b a).swap :=
  lexCmp_swap ccmp ccmp_swap a.data b.data

theorem scmp_eq_left (a b : String) (h : scmp a b = .eq) (c : String) :
    scmp a c = scmp b c :=
  lexCmp_eq_left ccmp ccmp_eq_left a.data b.data h c.data

theorem scmp_lt_trans {a b c : String} (h1 : scmp a b = .lt)
    (h2 : scmp b c = .lt) : scmp a c = .lt :=
  lexCmp_lt_trans ccmp ccmp_swap ccmp_eq_left
    (fun _ _ _ => ccmp_lt_trans) a.data b.data c.data h1 h2

theorem tcmp_swap (a b : Tok) : tcmp a b = (tcmp b a).swap := by
  cases a <;> cases b <;>
    first
      | rfl
      | exact icmp_swap _ _
      | exact scmp_swap _ _

theorem tcmp_eq_left (a b : Tok) (h : tcmp a b = .eq) (c : Tok) :
    tcmp a c = tcmp b c := by
  cases a <;> cases b <;> simp [tcmp] at h <;> try rfl
  · obtain rfl := (icmp_eq_iff _ _).mp h
    rfl
  · cases c <;> try rfl
    exact scmp_eq_left _ _ h _

theorem tcmp_lt_trans {a b c : Tok} (h1 : tcmp a b = .lt)
    (h2 : tcmp b c = .lt) : tcmp a c = .lt := by
  cases a <;> cases b <;> cases c <;> simp [tcmp] at h1 h2 ⊢ <;> try rfl
  · exact icmp_lt_trans h1 h2
  · exact scmp_lt_trans h1 h2

end Pregel

namespace Pregel

/-- Values carried by writes and channels (Python `Any`): integers, strings,
`Send` packets `{node, arg}`, and `None`. -/
inductive Val where
  | vint : Int → Val
  | vstr : String → Val
  | vsend : String → Val → Val
  | vnone : Val
deriving DecidableEq

/-- A write-bearing task: the `WritesProtocol` shape
`{path, name, writes, triggers}` of `algo.py`. -/
structure Task where
  path : List PElem
  name : String
  writes : List (String × Val)
  triggers : List String

/-- Sort key of a task: the token serialization of `path[:3]`
(`sorted(tasks, key=lambda t: t.path[:3])`). -/
def taskKey (t : Task) : List Tok := serList (t.path.take 3)

/-- Comparison of two tasks by their sort keys. -/
def taskCmp (t u : Task) : Ordering := lexCmp tcmp (taskKey t) (taskKey u)

/-- The (total, decidable) sort relation used to embed Python's stable sort. -/
def taskLe (t u : Task) : Prop := taskCmp t u ≠ .gt

instance : DecidableRel taskLe := fun t u => by
  unfold taskLe
  infer_instance

theorem taskCmp_swap (t u : Task) : taskCmp t u = (taskCmp u t).swap :=
  lexCmp_swap tcmp tcmp_swap _ _

instance : IsTotal Task taskLe where
  total t u := by
    unfold taskLe
    rw [taskCmp_swap t u]
    cases taskCmp u t <;> simp [Ordering.swap]

instance : IsTrans Task taskLe where
  trans t u v h1 h2 := by
    unfold taskLe taskCmp at h1 h2 ⊢
    cases c1 : lexCmp tcmp (taskKey t) (taskKey u) with
    | gt => exact absurd c1 h1
    | lt =>
        cases c2 : lexCmp tcmp (taskKey u) (taskKey v) with
        | gt => exact absurd c2 h2
        | lt =>
            simp [lexCmp_lt_trans tcmp tcmp_swap tcmp_eq_left
              (fun _ _ _ => tcmp_lt_trans) _ _ _ c1 c2]
        | eq =>
            have h := lexCmp_eq_left tcmp tcmp_eq_left _ _ c2 (taskKey t)
            rw [lexCmp_swap tcmp tcmp_swap _ _, ← h,
              ← lexCmp_swap tcmp tcmp_swap _ _, c1]
            simp
    | eq =>
        have h := lexCmp_eq_left tcmp tcmp_eq_left _ _ c1 (taskKey v)
        rw [h]
        exact h2

/-- The engine's task sort: Python's `sorted` is a stable sort, embedded by
Mathlib's (stable) insertion sort. -/
def sortTasks (tasks : List Task) : List Task := List.insertionSort taskLe tasks

/-- Two sorted lists that are permutations of each other and have pairwise
distinct sort keys are equal. -/
theorem sorted_perm_nodupkeys_eq :
    ∀ (l₁ l₂ : List Task), List.Sorted taskLe l₁ → List.Sorted taskLe l₂ →
      l₁.Perm l₂ → l₁.Pairwise (fun a b => taskCmp a b ≠ .eq) → l₁ = l₂ := by
  intro l₁
  induction l₁ with
  | nil =>
      intro l₂ _ _ hp _
      exact (hp.nil_eq).symm ▸ rfl
  | cons a t₁ ih =>
      intro l₂ hs₁ hs₂ hp hpw
      cases l₂ with
      | nil => exact absurd hp.symm (by simp)
      | cons b t₂ =>
          have hab : a = b := by
            by_contra hne
            have ha2 : a ∈ b :: t₂ := hp.subset (by simp)
            have hb1 : b ∈ a :: t₁ := hp.symm.subset (by simp)
            have hat2 : a ∈ t₂ := by
              cases ha2 with
              | head => exact absurd rfl hne
              | tail _ h => exact h
            have hbt1 : b ∈ t₁ := by
              cases hb1 with
              | head => exact absurd rfl hne
              | tail _ h => exact h
            have h1 : taskLe a b := (List.pairwise_cons.mp hs₁).1 b hbt1
            have h2 : taskLe b a := (List.pairwise_cons.mp hs₂).1 a hat2
            have hne' : taskCmp a b ≠ .eq :=
              (List.pairwise_cons.mp hpw).1 b hbt1
            unfold taskLe at h1 h2
            rw [taskCmp_swap b a] at h2
            unfold taskCmp at h1 h2 hne'
            cases hc : lexCmp tcmp (taskKey a) (taskKey b) with
            | gt => exact h1 hc
            | eq => exact hne' hc
            | lt =>
                rw [hc] at h2
                exact h2 rfl
          subst hab
          have ht : t₁ = t₂ :=
            ih t₂ (List.pairwise_cons.mp hs₁).2 (List.pairwise_cons.mp hs₂).2
              (hp.cons_inv) (List.pairwise_cons.mp hpw).2
          rw [ht]

/-- Task-key distinctness is symmetric, so it transfers over permutations. -/
theorem taskCmp_ne_symm {a b : Task} (h : taskCmp a b ≠ .eq) :
    taskCmp b a ≠ .eq := by
  rw [taskCmp_swap b a]
  intro hc
  apply h
  cases hh : taskCmp a b <;> rw [hh] at hc <;>
    first | rfl | exact absurd hc (by decide)

/-- Permutations with pairwise distinct sort keys have the same sorted order:
the Python sort output is independent of input order in that case. -/
theorem sortTasks_perm_eq (l₁ l₂ : List Task) (hp : l₁.Perm l₂)
    (hk : l₁.Pairwise (fun a b => taskCmp a b ≠ .eq)) :
    sortTasks l₁ = sortTasks l₂ := by
  apply sorted_perm_nodupkeys_eq
  · exact List.sorted_insertionSort taskLe l₁
  · exact List.sorted_insertionSort taskLe l₂
  · exact (List.perm_insertionSort taskLe l₁).trans
      (hp.trans (List.perm_insertionSort taskLe l₂).symm)
  · exact ((List.perm_insertionSort taskLe l₁).pairwise_iff
      (fun h => taskCmp_ne_symm h)).mpr hk

end Pregel

namespace Pregel

/-- Modelled from the spec: the well-known channel-name constants of
`langgraph.constants` (the module is not among the sources).  Only their
distinctness matters to the engine. -/
def NO_WRITES : String := "__no_writes__"

/-- Modelled from the spec: the PUSH pseudo-channel name. -/
def PUSH : String := "__pregel_push"

/-- Modelled from the spec: the PULL pseudo-channel name. -/
def PULL : String := "__pregel_pull"

/-- Modelled from the spec: the RESUME pseudo-channel name. -/
def RESUME : String := "__pregel_resume"

/-- Modelled from the spec: the INTERRUPT channel name, also the special key
of `versions_seen` used by `should_interrupt`. -/
def INTERRUPT : String := "__interrupt__"

/-- Modelled from the spec: the RETURN pseudo-channel name. -/
def RETURN : String := "__pregel_return"

/-- Modelled from the spec: the ERROR pseudo-channel name. -/
def ERROR : String := "__error__"

/-- Modelled from the spec: the legacy TASKS channel name. -/
def TASKS : String := "__pregel_tasks"

/-- Modelled from the spec: the null task id. -/
def NULL_TASK_ID : String := "00000000-0000-0000-0000-000000000000"

/-- Modelled from the spec: the reserved channel names of section 6. -/
def RESERVED : List String :=
  [INTERRUPT, TASKS, PUSH, PULL, RESUME, RETURN, ERROR, NO_WRITES, NULL_TASK_ID]

/-- Modelled from the spec: the hidden tag checked by `should_interrupt`. -/
def TAG_HIDDEN : String := "langsmith:hidden"

/-- Modelled from the spec: a `BaseChannel`, as a state value plus the
capability set `update`/`consume`/`read`.  `update`/`consume` return the new
state and the bool that signals a version bump; `read` returns `none` where
the Python channel raises `EmptyChannelError`. -/
structure Channel (σ : Type _) where
  state : σ
  updateFn : σ → List Val → σ × Bool
  consumeFn : σ → σ × Bool
  readFn : σ → Option Val

/-- A checkpoint: identity (as UUID bytes), channel versions, versions seen
per node, and pending sends.  Versions are the default integer versions. -/
structure Checkpoint where
  id : List Nat
  channel_versions : List (String × Int)
  versions_seen : List (String × List (String × Int))
  pending_sends : List Val

abbrev Channels (σ : Type _) := List (String × Channel σ)

abbrev VersionMap := List (String × Int)

/-- The pluggable `GetNextVersion = Callable[[Optional[V], BaseChannel], V]`. -/
abbrev GetNextVersion (σ : Type _) := Option Int → Channel σ → Int

/-- Default channel versioning function (`increment` in `algo.py`). -/
def increment {σ : Type _} (current : Option Int) (channel : Channel σ) : Int :=
  match current with
  | some c => c + 1
  | none => 1

/-- Python `max(channel_versions.values())`, or `None` when empty. -/
def maxVer (vs : VersionMap) : Option Int :=
  match vs.map Prod.snd with
  | [] => none
  | v :: rest => some (rest.foldl max v)

/-- One step of the versions-seen update of `apply_writes`:
`versions_seen.setdefault(task.name, {}).update({chan: channel_versions[chan]
for chan in task.triggers if chan in channel_versions})`. -/
def seenUpdateOne (channel_versions : VersionMap)
    (seen : List (String × VersionMap)) (t : Task) :
    List (String × VersionMap) :=
  let cur := (alGet seen t.name).getD []
  let upd := t.triggers.foldl
    (fun m chan =>
      match alGet channel_versions chan with
      | some v => alSet m chan v
      | none => m) cur
  alSet seen t.name upd

/-- The versions-seen pass of `apply_writes`, over all (sorted) tasks. -/
def seenPass (channel_versions : VersionMap)
    (seen : List (String × VersionMap)) (ts : List Task) :
    List (String × VersionMap) :=
  ts.foldl (seenUpdateOne channel_versions) seen

/-- One consumed trigger channel of `apply_writes`:
`channels[chan].consume()` and, when it returns true and a `next_version`
function is present, a version bump from the pre-pass `max_version`. -/
def consumeStep {σ : Type _} (gnv : Option (GetNextVersion σ)) (m : Option Int)
    (st : Channels σ × VersionMap) (chan : String) : Channels σ × VersionMap :=
  match alGet st.1 chan with
  | none => st
  | some ch =>
      let p := ch.consumeFn ch.state
      let ch' : Channel σ := { ch with state := p.1 }
      let chans' := alSet st.1 chan ch'
      match p.2, gnv with
      | true, some f => (chans', alSet st.2 chan (f m ch'))
      | _, _ => (chans', st.2)

/-- Partition accumulator: writes grouped by channel, writes grouped by
managed key, and the pending-sends list being appended to. -/
structure Partition where
  byChannel : List (String × List Val)
  byManaged : List (String × List Val)
  sends : List Val

/-- One write of the grouping loop of `apply_writes`: pseudo-channels are
skipped, `TASKS` appends to `pending_sends`, channel writes and managed
writes are buffered in `defaultdict(list)` fashion. -/
def partitionStep {σ : Type _} (channels : Channels σ) (acc : Partition)
    (w : String × Val) : Partition :=
  if w.1 = NO_WRITES ∨ w.1 = PUSH ∨ w.1 = RESUME ∨ w.1 = INTERRUPT ∨
      w.1 = RETURN ∨ w.1 = ERROR then acc
  else if w.1 = TASKS then { acc with sends := acc.sends ++ [w.2] }
  else if (alGet channels w.1).isSome then
    let l := (alGet acc.byChannel w.1).getD [] ++ [w.2]
    { acc with byChannel := alSet acc.byChannel w.1 l }
  else
    let l := (alGet acc.byManaged w.1).getD [] ++ [w.2]
    { acc with byManaged := alSet acc.byManaged w.1 l }

/-- One grouped channel write of `apply_writes`: `channels[chan].update(vals)`
plus the guarded version bump, recording the channel as updated. -/
def updateStep {σ : Type _} (gnv : Option (GetNextVersion σ)) (m : Option Int)
    (st : Channels σ × VersionMap × List String) (pw : String × List Val) :
    Channels σ × VersionMap × List String :=
  match alGet st.1 pw.1 with
  | none => st
  | some ch =>
      let p := ch.updateFn ch.state pw.2
      let ch' : Channel σ := { ch with state := p.1 }
      let chans' := alSet st.1 pw.1 ch'
      let vers' :=
        match p.2, gnv with
        | true, some f => alSet st.2.1 pw.1 (f m ch')
        | _, _ => st.2.1
      (chans', vers', st.2.2 ++ [pw.1])

/-- One channel of the idle-notification pass of `apply_writes`: channels not
updated in this step receive `update([])`, with the guarded version bump. -/
def bumpStep {σ : Type _} (gnv : Option (GetNextVersion σ)) (m : Option Int)
    (updated : List String) (st : Channels σ × VersionMap) (chan : String) :
    Channels σ × VersionMap :=
  if chan ∈ updated then st
  else
    match alGet st.1 chan with
    | none => st
    | some ch =>
        let p := ch.updateFn ch.state []
        let ch' : Channel σ := { ch with state := p.1 }
        let chans' := alSet st.1 chan ch'
        match p.2, gnv with
        | true, some f => (chans', alSet st.2 chan (f m ch'))
        | _, _ => (chans', st.2)

/-- Result of `apply_writes`: the mutated checkpoint and channels, and the
returned managed-value writes. -/
structure ApplyResult (σ : Type _) where
  checkpoint : Checkpoint
  channels : Channels σ
  managed : List (String × List Val)

/-- The trigger channels consumed by `apply_writes`: the set comprehension
over all task triggers, excluding RESERVED names and names missing from
`channels` (deduplicated, as a Python set). -/
def consumeChans {σ : Type _} (channels : Channels σ) (ts : List Task) :
    List String :=
  ((ts.flatMap Task.triggers).filter
    (fun c => !RESERVED.contains c && (alGet channels c).isSome)).dedup

/-- Shallow embedding of `apply_writes` (`algo.py`): sort tasks by
`path[:3]`, record seen versions, consume triggers, clear pending sends on a
bump step, group writes, update channels, notify idle channels, and return
the managed-value writes. -/
def apply_writes {σ : Type _} (checkpoint : Checkpoint) (channels : Channels σ)
    (tasks : List Task) (get_next_version : Option (GetNextVersion σ)) :
    ApplyResult σ :=
  let ts := sortTasks tasks
  let bump_step := ts.any (fun t => !t.triggers.isEmpty)
  let seen := seenPass checkpoint.channel_versions checkpoint.versions_seen ts
  let max1 := maxVer checkpoint.channel_versions
  let st1 := (consumeChans channels ts).foldl
    (consumeStep get_next_version max1) (channels, checkpoint.channel_versions)
  let sends1 := if bump_step then [] else checkpoint.pending_sends
  let part := ts.foldl (fun acc t => t.writes.foldl (partitionStep st1.1) acc)
    { byChannel := [], byManaged := [], sends := sends1 }
  let max2 := maxVer st1.2
  let st2 := part.byChannel.foldl (updateStep get_next_version max2)
    (st1.1, st1.2, [])
  let st3 :=
    if bump_step then
      (alKeys st2.1).foldl (bumpStep get_next_version max2 st2.2.2)
        (st2.1, st2.2.1)
    else (st2.1, st2.2.1)
  { checkpoint :=
      { checkpoint with
          channel_versions := st3.2,
          versions_seen := seen,
          pending_sends := part.sends },
    channels := st3.1,
    managed := part.byManaged }

end Pregel

namespace Pregel

/-- The `interrupt_nodes` argument: `"*"` (all) or a sequence of node names. -/
inductive InterruptNodes where
  | all : InterruptNodes
  | names : List String → InterruptNodes

/-- A task as seen by `should_interrupt`: its name, and its config's tag list
(`none` models a falsy `task.config`). -/
structure ITask where
  name : String
  config : Option (List String)

/-- One comparison of the `any` generator of `should_interrupt`:
`version > seen.get(chan, null_version)`; comparing against a `None` null
version raises `TypeError` (modelled as an `Except` error; unreachable
because the null version is `None` only when `channel_versions` is empty). -/
def anyUpdatesStep (sv? : Option Int) (version : Int)
    (next : Except String Bool) : Except String Bool :=
  match sv? with
  | none => .error "TypeError: not supported between int and NoneType"
  | some sv => if sv < version then .ok true else next

/-- The `any` generator of `should_interrupt` over `channel_versions`. -/
def anyUpdatesSince (seen : VersionMap) (null : Option Int) :
    VersionMap → Except String Bool
  | [] => .ok false
  | (chan, version) :: rest =>
      anyUpdatesStep ((alGet seen chan).orElse (fun _ => null)) version
        (anyUpdatesSince seen null rest)

/-- Shallow embedding of `should_interrupt` (`algo.py`): interrupt iff some
channel version advanced past the `INTERRUPT` seen-map, selecting tasks by
name (or all non-hidden tasks for `"*"`). -/
def should_interrupt (checkpoint : Checkpoint)
    (interrupt_nodes : InterruptNodes) (tasks : List ITask) :
    Except String (List ITask) :=
  let null : Option Int :=
    if checkpoint.channel_versions.isEmpty then none else some 0
  let seen := (alGet checkpoint.versions_seen INTERRUPT).getD []
  match anyUpdatesSince seen null checkpoint.channel_versions with
  | .error e => .error e
  | .ok b =>
      if b then
        match interrupt_nodes with
        | .all =>
            .ok (tasks.filter (fun t =>
              match t.config with
              | none => true
              | some tags => !tags.contains TAG_HIDDEN))
        | .names ns => .ok (tasks.filter (fun t => ns.contains t.name))
      else .ok []

/-- Errors raised by `local_write` (`InvalidUpdateError` variants). -/
inductive LWError where
  | expectedSend : Val → LWError
  | invalidNode : String → LWError
deriving DecidableEq

/-- The validation loop of `local_write`: the first PUSH/TASKS write whose
value is neither `None` nor a valid `Send` raises. -/
def localWriteCheck (process_keys : List String) :
    List (String × Val) → Option LWError
  | [] => none
  | (chan, value) :: rest =>
      if (chan = PUSH ∨ chan = TASKS) ∧ value ≠ Val.vnone then
        match value with
        | .vsend node _ =>
            if process_keys.contains node then
              localWriteCheck process_keys rest
            else some (.invalidNode node)
        | v => some (.expectedSend v)
      else localWriteCheck process_keys rest

/-- Shallow embedding of `local_write` (`algo.py`): validate all writes, then
commit them by appending to the task's write buffer; an invalid write raises
before anything is committed. -/
def local_write (buffer : List (String × Val)) (process_keys : List String)
    (writes : List (String × Val)) : Except LWError (List (String × Val)) :=
  match localWriteCheck process_keys writes with
  | some e => .error e
  | none => .ok (buffer ++ writes)

end Pregel

namespace Pregel

/-- Truncation to 32 bits. -/
def w32 (n : Nat) : Nat := n % 4294967296

/-- Left rotation of a 32-bit word by `k` bits. -/
def rotl (k n : Nat) : Nat := (n * 2 ^ k + n / 2 ^ (32 - k)) % 4294967296

/-- Big-endian bytes of a 32-bit word. -/
def be4 (n : Nat) : List Nat :=
  [n / 2 ^ 24 % 256, n / 2 ^ 16 % 256, n / 2 ^ 8 % 256, n % 256]

/-- Big-endian bytes of a 64-bit length. -/
def be8 (n : Nat) : List Nat :=
  [n / 2 ^ 56 % 256, n / 2 ^ 48 % 256, n / 2 ^ 40 % 256, n / 2 ^ 32 % 256,
    n / 2 ^ 24 % 256, n / 2 ^ 16 % 256, n / 2 ^ 8 % 256, n % 256]

/-- SHA-1 message padding: `0x80`, zeros to 56 mod 64, 8-byte bit length. -/
def sha1Pad (msg : List Nat) : List Nat :=
  msg ++ [128] ++ List.replicate ((119 - msg.length % 64) % 64) 0 ++
    be8 (msg.length * 8)

/-- Big-endian 32-bit words of a byte list. -/
def toWords : List Nat → List Nat
  | b0 :: b1 :: b2 :: b3 :: rest =>
      (((b0 * 256 + b1) * 256 + b2) * 256 + b3) :: toWords rest
  | _ => []

/-- SHA-1 message-schedule extension, appending `count` more words. -/
def sha1Extend (ws : List Nat) : Nat → List Nat
  | 0 => ws
  | k + 1 =>
      let n := ws.length
      let w := rotl 1 ((ws.getD (n - 3) 0) ^^^ (ws.getD (n - 8) 0) ^^^
        (ws.getD (n - 14) 0) ^^^ (ws.getD (n - 16) 0))
      sha1Extend (ws ++ [w]) k

/-- The SHA-1 round function per round quarter. -/
def sha1F (i b c d : Nat) : Nat :=
  if i < 20 then (b &&& c) ||| ((4294967295 - b) &&& d)
  else if i < 40 then b ^^^ c ^^^ d
  else if i < 60 then (b &&& c) ||| (b &&& d) ||| (c &&& d)
  else b ^^^ c ^^^ d

/-- The SHA-1 round constant per round quarter. -/
def sha1K (i : Nat) : Nat :=
  if i < 20 then 1518500249
  else if i < 40 then 1859775393
  else if i < 60 then 2400959708
  else 3395469782

/-- The 80 SHA-1 rounds over one chunk's schedule. -/
def sha1Loop : Nat → Nat × Nat × Nat × Nat × Nat → List Nat →
    Nat × Nat × Nat × Nat × Nat
  | _, st, [] => st
  | i, (a, b, c, d, e), w :: rest =>
      let temp := w32 (rotl 5 a + sha1F i b c d + e + sha1K i + w)
      sha1Loop (i + 1) (temp, a, rotl 30 b, c, d) rest

/-- Compress one 64-byte chunk into the running hash state. -/
def sha1Chunk (h : Nat × Nat × Nat × Nat × Nat) (chunk : List Nat) :
    Nat × Nat × Nat × Nat × Nat :=
  let st := sha1Loop 0 h (sha1Extend (toWords chunk) 64)
  (w32 (h.1 + st.1), w32 (h.2.1 + st.2.1), w32 (h.2.2.1 + st.2.2.1),
    w32 (h.2.2.2.1 + st.2.2.2.1), w32 (h.2.2.2.2 + st.2.2.2.2))

/-- Split a byte list into 64-byte chunks (structural fuel recursion so that
the definition evaluates inside the kernel). -/
def chunks64Go : Nat → List Nat → List (List Nat)
  | 0, _ => []
  | fuel + 1, l =>
      if l.length = 0 then [] else l.take 64 :: chunks64Go fuel (l.drop 64)

/-- Split a byte list into 64-byte chunks. -/
def chunks64 (l : List Nat) : List (List Nat) := chunks64Go l.length l

/-- SHA-1 of a byte list, as its 20-byte digest. -/
def sha1 (msg : List Nat) : List Nat :=
  let hf := (chunks64 (sha1Pad msg)).foldl sha1Chunk
    (1732584193, 4023233417, 2562383102, 271733878, 3285377520)
  be4 hf.1 ++ be4 hf.2.1 ++ be4 hf.2.2.1 ++ be4 hf.2.2.2.1 ++ be4 hf.2.2.2.2

/-- Lower-case hex digit. -/
def hexChar (n : Nat) : Char :=
  if n < 10 then Char.ofNat (48 + n) else Char.ofNat (87 + n)

/-- Two hex digits of a byte. -/
def byteHex (b : Nat) : List Char := [hexChar (b / 16), hexChar (b % 16)]

/-- Hex digest of SHA-1 (Python `sha1(...).hexdigest()`), as characters. -/
def sha1Hex (msg : List Nat) : List Char := (sha1 msg).flatMap byteHex

/-- UTF-8 bytes of a string (Python `str.encode()`; the byte list underlying
`String.toUTF8`). -/
def utf8Bytes (s : String) : List Nat :=
  (s.data.flatMap String.utf8EncodeChar).map (fun b => b.toNat)

/-- Shallow embedding of `_uuid5_str` (`algo.py`): SHA-1 over the namespace
bytes followed by the encoded parts, formatted from the raw hex digest as
`hex[:8]-hex[8:12]-hex[12:16]-hex[16:20]-hex[20:32]`. -/
def _uuid5_str (ns : List Nat) (parts : List String) : String :=
  let hex := sha1Hex (ns ++ parts.flatMap utf8Bytes)
  String.mk (hex.take 8) ++ "-" ++ String.mk ((hex.drop 8).take 4) ++ "-" ++
    String.mk ((hex.drop 12).take 4) ++ "-" ++
    String.mk ((hex.drop 16).take 4) ++ "-" ++ String.mk ((hex.drop 20).take 12)

end Pregel

namespace Pregel

/-- Modelled from the spec: the namespace separator `NS_SEP`. -/
def NS_SEP : String := "|"

/-- Modelled from the spec: the namespace terminator `NS_END`. -/
def NS_END : String := ":"

/-- A registered process (`PregelNode`): trigger channels, and the input
specification, either a mapping `input key → channel name` (`Sum.inl`) or an
ordered list of channel names (`Sum.inr`).  Planning mode
(`for_execution = False`) never applies `proc.mapper`, so the mapper is not
modelled. -/
structure PregelNode where
  triggers : List String
  channels : Sum (List (String × String)) (List String)

/-- A planned task (`PregelTask`): id, name, and `task_path[:3]`. -/
structure PregelTask where
  id : String
  name : String
  path : List PElem

/-- Modelled from the spec: `read_channel` of `pregel/io.py` (not among the
sources): the channel's current value, `none` where the Python channel raises
`EmptyChannelError`.  Reading a channel name absent from `channels` is also
treated as empty. -/
def read_channel {σ : Type _} (channels : Channels σ) (chan : String) :
    Option Val :=
  match alGet channels chan with
  | none => none
  | some ch => ch.readFn ch.state

/-- The input of a PULL task: a single channel value (list form of
`proc.channels`) or a record of reads (mapping form). -/
inductive PInput where
  | one : Val → PInput
  | record : List (String × Val) → PInput
deriving DecidableEq

/-- The `for`/`else` of the list branch of `_proc_input`: the first non-empty
channel's value. -/
def firstRead {σ : Type _} (channels : Channels σ) : List String → Option Val
  | [] => none
  | c :: rest =>
      match read_channel channels c with
      | some v => some v
      | none => firstRead channels rest

/-- Shallow embedding of `_proc_input` (`algo.py`) in planning mode:
`.ok none` models an iterator that yields nothing (the task is suppressed),
`.error` models an uncaught exception (a managed-value `KeyError`). -/
def _proc_input {σ : Type _} (proc : PregelNode)
    (managed : List (String × Val)) (channels : Channels σ) :
    Except String (Option PInput) :=
  match proc.channels with
  | .inl entries =>
      let folded := entries.foldl
        (fun (acc : Except String (Option (List (String × Val)))) kv =>
          match acc with
          | .error e => .error e
          | .ok none => .ok none
          | .ok (some l) =>
              if proc.triggers.contains kv.2 then
                match read_channel channels kv.2 with
                | some v => .ok (some (alSet l kv.1 v))
                | none => .ok none
              else if (alGet channels kv.2).isSome then
                match read_channel channels kv.2 with
                | some v => .ok (some (alSet l kv.1 v))
                | none => .ok (some l)
              else
                match alGet managed kv.1 with
                | some v => .ok (some (alSet l kv.1 v))
                | none => .error "KeyError")
        (.ok (some []))
      folded.map (fun o => o.map PInput.record)
  | .inr chans => .ok ((firstRead channels chans).map PInput.one)

/-- Python's `sorted` on strings. -/
def sortStrings (l : List String) : List String :=
  List.insertionSort (fun a b => scmp a b ≠ .gt) l

/-- The triggered channels of the PULL branch: triggers whose channel is
readable and whose version advanced past the node's seen-map (null version
defaulting on both sides), in sorted order. -/
def triggeredChannels {σ : Type _} (checkpoint : Checkpoint)
    (channels : Channels σ) (proc : PregelNode) (seen : VersionMap) :
    List String :=
  sortStrings (proc.triggers.filter (fun chan =>
    (read_channel channels chan).isSome &&
      decide ((alGet seen chan).getD 0 <
        (alGet checkpoint.channel_versions chan).getD 0)))

/-- Shallow embedding of the PULL branch of `prepare_single_task` (`algo.py`)
in planning mode: `.ok none` models returning no task, `.error` an uncaught
exception from `_proc_input`. -/
def prepare_single_task_pull {σ : Type _} (checkpoint : Checkpoint)
    (processes : List (String × PregelNode)) (channels : Channels σ)
    (managed : List (String × Val)) (parent_ns : String) (step : Int)
    (name : String) : Except String (Option PregelTask) :=
  match alGet processes name with
  | none => .ok none
  | some proc =>
      if checkpoint.channel_versions.isEmpty then .ok none
      else
        let seen := (alGet checkpoint.versions_seen name).getD []
        let triggers := triggeredChannels checkpoint channels proc seen
        if triggers.isEmpty then .ok none
        else
          match _proc_input proc managed channels with
          | .error e => .error e
          | .ok none => .ok none
          | .ok (some _) =>
              let checkpoint_ns :=
                if parent_ns = "" then name else parent_ns ++ NS_SEP ++ name
              let task_id := _uuid5_str checkpoint.id
                ([checkpoint_ns, toString step, name, PULL] ++ triggers)
              .ok (some { id := task_id, name := name,
                          path := [.pstr PULL, .pstr name] })

end Pregel

namespace Pregel

set_option maxRecDepth 10000 in
/-- Sanity check of the SHA-1 embedding against the FIPS 180 test vector. -/
theorem sha1_test_vector :
    String.mk (sha1Hex (utf8Bytes "abc")) =
      "a9993e364706816aba3e25717850c26c9cd0d89d" := by decide

/-- The spec's description of the task-id layout (section 4.3): the first 32
hex characters of the SHA-1 digest of the namespace bytes followed by the
UTF-8 concatenation of the parts, grouped 8-4-4-4-12 with hyphens, with no
version or variant nibble forced. -/
def uuid5LayoutSpec (ns : List Nat) (parts : List String) : String :=
  let g := (sha1Hex (ns ++ parts.flatMap utf8Bytes)).take 32
  String.mk (g.take 8) ++ "-" ++ String.mk ((g.drop 8).take 4) ++ "-" ++
    String.mk ((g.drop 12).take 4) ++ "-" ++ String.mk ((g.drop 16).take 4) ++
    "-" ++ String.mk (g.drop 20)

/-- C5: for every checkpoint-id byte string and every part list, `_uuid5_str`
produces exactly the spec's layout: the first 32 hex characters of the raw
SHA-1 digest of the namespace bytes followed by the UTF-8 concatenation of
the parts, in 8-4-4-4-12 hyphen-separated groups, with no version or variant
nibbles forced; as a pure function it returns the identical string on
identical inputs. -/
theorem uuid5_str_layout (ns : List Nat) (parts : List String) :
    _uuid5_str ns parts = uuid5LayoutSpec ns parts := by
  simp only [_uuid5_str, uuid5LayoutSpec]
  have h1 : ∀ l : List Char, (l.take 32).take 8 = l.take 8 := by
    intro l
    simp [List.take_take]
  have h2 : ∀ l : List Char, ((l.take 32).drop 8).take 4 = (l.drop 8).take 4 := by
    intro l
    rw [List.drop_take]
    simp [List.take_take]
  have h3 : ∀ l : List Char, ((l.take 32).drop 12).take 4 = (l.drop 12).take 4 := by
    intro l
    rw [List.drop_take]
    simp [List.take_take]
  have h4 : ∀ l : List Char, ((l.take 32).drop 16).take 4 = (l.drop 16).take 4 := by
    intro l
    rw [List.drop_take]
    simp [List.take_take]
  have h5 : ∀ l : List Char, (l.take 32).drop 20 = (l.drop 20).take 12 := by
    intro l
    rw [List.drop_take]
  rw [h1, h2, h3, h4, h5]

/-- C10: with an empty `channel_versions` map, `should_interrupt` returns the
empty list without raising, although the null version is derived from the
type of a first channel version that does not exist (`NoneType`): the `any`
generator never compares against the undefined null version. -/
theorem should_interrupt_empty_versions (checkpoint : Checkpoint)
    (h : checkpoint.channel_versions = []) (interrupt_nodes : InterruptNodes)
    (tasks : List ITask) :
    should_interrupt checkpoint interrupt_nodes tasks = .ok [] := by
  unfold should_interrupt
  rw [h]
  simp [anyUpdatesSince]

/-- Witness for C10 at a concrete checkpoint. -/
theorem should_interrupt_empty_versions_witness :
    should_interrupt
        { id := [], channel_versions := [], versions_seen := [],
          pending_sends := [] } .all [{ name := "A", config := none }] =
      .ok [] :=
  should_interrupt_empty_versions _ rfl _ _

/-- The `any` generator of `should_interrupt` yields false when every channel
version is bounded by its `INTERRUPT`-seen entry (null version default). -/
theorem anyUpdatesSince_eq_false (seen : VersionMap) (vs : VersionMap)
    (h : ∀ p ∈ vs, p.2 ≤ (alGet seen p.1).getD 0) :
    anyUpdatesSince seen (some 0) vs = .ok false := by
  induction vs with
  | nil => rfl
  | cons p rest ih =>
      obtain ⟨c, v⟩ := p
      have hv := h (c, v) (by simp)
      have hrest := fun q hq => h q (List.mem_cons_of_mem _ hq)
      have step : anyUpdatesSince seen (some 0) ((c, v) :: rest) =
          anyUpdatesStep ((alGet seen c).orElse (fun _ => some 0)) v
            (anyUpdatesSince seen (some 0) rest) := rfl
      rw [step, ih hrest]
      cases hg : alGet seen c with
      | some sv =>
          rw [hg] at hv
          simp only [Option.getD_some] at hv
          simp [anyUpdatesStep, Option.orElse]
          omega
      | none =>
          rw [hg] at hv
          simp only [Option.getD_none] at hv
          simp [anyUpdatesStep, Option.orElse]
          omega

/-- C6: `should_interrupt` returns the empty list whenever no channel version
in `channel_versions` exceeds the version recorded for that channel under the
`INTERRUPT` key of `versions_seen` (missing entries defaulting to the null
version). -/
theorem should_interrupt_gating (checkpoint : Checkpoint)
    (interrupt_nodes : InterruptNodes) (tasks : List ITask)
    (h : ∀ p ∈ checkpoint.channel_versions,
      p.2 ≤ (alGet ((alGet checkpoint.versions_seen INTERRUPT).getD [])
        p.1).getD 0) :
    should_interrupt checkpoint interrupt_nodes tasks = .ok [] := by
  unfold should_interrupt
  cases hcv : checkpoint.channel_versions with
  | nil => simp [anyUpdatesSince]
  | cons q rest =>
      rw [hcv] at h
      simp [anyUpdatesSince_eq_false _ _ h]

/-- Witness for C6 at a concrete checkpoint with a non-advanced channel. -/
theorem should_interrupt_gating_witness :
    should_interrupt
        { id := [], channel_versions := [("c", 1)],
          versions_seen := [(INTERRUPT, [("c", 1)])], pending_sends := [] }
        (.names ["A"]) [{ name := "A", config := none }] =
      .ok [] :=
  should_interrupt_gating _ _ _ (by decide)

end Pregel

namespace Pregel

/-- The validity condition enforced by `local_write`: every write targeting
PUSH or TASKS carries either `None` or a `Send` packet to a registered node. -/
def ValidWrites (process_keys : List String)
    (writes : List (String × Val)) : Prop :=
  ∀ w ∈ writes, (w.1 = PUSH ∨ w.1 = TASKS) → w.2 ≠ Val.vnone →
    ∃ node arg, w.2 = Val.vsend node arg ∧ process_keys.contains node = true

theorem validWrites_cons (keys : List String) (w : String × Val)
    (rest : List (String × Val)) :
    ValidWrites keys (w :: rest) ↔
      ((w.1 = PUSH ∨ w.1 = TASKS) → w.2 ≠ Val.vnone →
        ∃ node arg, w.2 = Val.vsend node arg ∧ keys.contains node = true) ∧
      ValidWrites keys rest := by
  unfold ValidWrites
  simp [List.forall_mem_cons]

theorem localWriteCheck_none_iff (keys : List String)
    (writes : List (String × Val)) :
    localWriteCheck keys writes = none ↔ ValidWrites keys writes := by
  induction writes with
  | nil => simp [localWriteCheck, ValidWrites]
  | cons w rest ih =>
      obtain ⟨chan, value⟩ := w
      simp only [localWriteCheck]
      rw [validWrites_cons]
      by_cases hc : (chan = PUSH ∨ chan = TASKS) ∧ value ≠ Val.vnone
      · rw [if_pos hc]
        obtain ⟨hpt, hnn⟩ := hc
        cases value with
        | vsend node arg =>
            dsimp only
            by_cases hn : keys.contains node = true
            · rw [if_pos hn, ih]
              constructor
              · intro hr
                exact ⟨fun _ _ => ⟨node, arg, rfl, hn⟩, hr⟩
              · exact fun hh => hh.2
            · rw [if_neg hn]
              constructor
              · intro hsome
                cases hsome
              · intro hh
                obtain ⟨node', arg', heq, hcon⟩ := hh.1 hpt hnn
                obtain ⟨rfl, rfl⟩ := Val.vsend.inj heq
                exact absurd hcon hn
        | vint n =>
            constructor
            · intro hsome
              cases hsome
            · intro hh
              obtain ⟨node', arg', heq, _⟩ := hh.1 hpt hnn
              cases heq
        | vstr s =>
            constructor
            · intro hsome
              cases hsome
            · intro hh
              obtain ⟨node', arg', heq, _⟩ := hh.1 hpt hnn
              cases heq
        | vnone => exact absurd rfl hnn
      · rw [if_neg hc, ih]
        constructor
        · intro hr
          refine ⟨?_, hr⟩
          intro hpt hnn
          exact absurd ⟨hpt, hnn⟩ hc
        · exact fun hh => hh.2

/-- C7 (amended): `local_write` commits all writes (by appending them to the
task's write buffer) when every PUSH/TASKS write carries `None` or a `Send`
to a registered node, and otherwise raises `InvalidUpdateError` without
committing anything. -/
theorem local_write_validates (buffer : List (String × Val))
    (process_keys : List String) (writes : List (String × Val)) :
    (ValidWrites process_keys writes →
      local_write buffer process_keys writes = .ok (buffer ++ writes)) ∧
    (¬ ValidWrites process_keys writes →
      ∃ e, local_write buffer process_keys writes = .error e) := by
  constructor
  · intro hv
    unfold local_write
    rw [(localWriteCheck_none_iff _ _).mpr hv]
  · intro hv
    unfold local_write
    cases hk : localWriteCheck process_keys writes with
    | none => exact absurd ((localWriteCheck_none_iff _ _).mp hk) hv
    | some e => exact ⟨e, rfl⟩

/-- C7 counterexample: a PUSH write whose value is `None` — hence not a
`Send` — is committed rather than raising `InvalidUpdateError`. -/
theorem local_write_none_counterexample :
    (∀ node arg, Val.vnone ≠ Val.vsend node arg) ∧
    local_write [] ["A"] [(PUSH, Val.vnone)] = .ok [(PUSH, Val.vnone)] := by
  constructor
  · intro node arg h
    cases h
  · rfl

/-- Witness for C7 at a concrete valid write list. -/
theorem local_write_validates_witness :
    local_write [("y", Val.vint 0)] ["A"]
        [(PUSH, Val.vsend "A" Val.vnone), ("x", Val.vint 1)] =
      .ok [("y", Val.vint 0), (PUSH, Val.vsend "A" Val.vnone),
        ("x", Val.vint 1)] :=
  (local_write_validates _ _ _).1 (by
    intro w hw
    rcases List.mem_cons.mp hw with h | h
    · subst h
      intro _ _
      exact ⟨"A", Val.vnone, rfl, rfl⟩
    · rw [List.mem_singleton] at h
      subst h
      intro hpt _
      rcases hpt with h1 | h1 <;> exact absurd h1 (by decide))

end Pregel

namespace Pregel

theorem consume_fold_versions_none {σ : Type _} (m : Option Int)
    (l : List String) (st : Channels σ × VersionMap) :
    (l.foldl (consumeStep (σ := σ) none m) st).2 = st.2 := by
  induction l generalizing st with
  | nil => rfl
  | cons c rest ih =>
      rw [List.foldl_cons, ih]
      unfold consumeStep
      cases alGet st.1 c with
      | none => rfl
      | some ch =>
          dsimp only
          rcases hcc : ch.consumeFn ch.state with ⟨s', flag⟩
          cases flag <;> rfl

theorem update_fold_versions_none {σ : Type _} (m : Option Int)
    (l : List (String × List Val)) (st : Channels σ × VersionMap × List String) :
    (l.foldl (updateStep (σ := σ) none m) st).2.1 = st.2.1 := by
  induction l generalizing st with
  | nil => rfl
  | cons pw rest ih =>
      rw [List.foldl_cons, ih]
      unfold updateStep
      cases alGet st.1 pw.1 with
      | none => rfl
      | some ch =>
          dsimp only
          rcases hcc : ch.updateFn ch.state pw.2 with ⟨s', flag⟩
          cases flag <;> rfl

theorem bump_fold_versions_none {σ : Type _} (m : Option Int)
    (upd : List String) (l : List String) (st : Channels σ × VersionMap) :
    (l.foldl (bumpStep (σ := σ) none m upd) st).2 = st.2 := by
  induction l generalizing st with
  | nil => rfl
  | cons c rest ih =>
      rw [List.foldl_cons, ih]
      unfold bumpStep
      by_cases hu : c ∈ upd
      · rw [if_pos hu]
      · rw [if_neg hu]
        cases alGet st.1 c with
        | none => rfl
        | some ch =>
            dsimp only
            rcases hcc : ch.updateFn ch.state [] with ⟨s', flag⟩
            cases flag <;> rfl

/-- C9: calling `apply_writes` with `get_next_version = None` leaves
`channel_versions` unchanged for every channel, even when channels consume or
update successfully: every version assignment is guarded by
`get_next_version is not None`. -/
theorem apply_writes_none_frame {σ : Type _} (checkpoint : Checkpoint)
    (channels : Channels σ) (tasks : List Task) :
    (apply_writes checkpoint channels tasks none).checkpoint.channel_versions
      = checkpoint.channel_versions := by
  simp only [apply_writes]
  split
  · rw [bump_fold_versions_none, update_fold_versions_none,
      consume_fold_versions_none]
  · rw [update_fold_versions_none, consume_fold_versions_none]

end Pregel

namespace Pregel

/-- The values written to the legacy TASKS channel by a task list, in order:
what the grouping loop of `apply_writes` appends to `pending_sends`. -/
def tasksSends (ts : List Task) : List Val :=
  ts.flatMap (fun t =>
    t.writes.filterMap (fun w => if w.1 = TASKS then some w.2 else none))

theorem partition_writes_sends {σ : Type _} (channels : Channels σ) :
    ∀ (ws : List (String × Val)) (acc : Partition),
      (ws.foldl (partitionStep channels) acc).sends =
        acc.sends ++
          ws.filterMap (fun w => if w.1 = TASKS then some w.2 else none) := by
  intro ws
  induction ws with
  | nil =>
      intro acc
      simp
  | cons w rest ih =>
      intro acc
      rw [List.foldl_cons, ih]
      unfold partitionStep
      by_cases h1 : w.1 = NO_WRITES ∨ w.1 = PUSH ∨ w.1 = RESUME ∨
          w.1 = INTERRUPT ∨ w.1 = RETURN ∨ w.1 = ERROR
      · rw [if_pos h1]
        have hT : ¬ w.1 = TASKS := by
          rcases h1 with h | h | h | h | h | h <;> rw [h] <;> decide
        simp [List.filterMap_cons, hT]
      · rw [if_neg h1]
        by_cases h2 : w.1 = TASKS
        · rw [if_pos h2]
          simp [List.filterMap_cons, h2]
        · rw [if_neg h2]
          by_cases h3 : (alGet channels w.1).isSome
          · rw [if_pos h3]
            simp [List.filterMap_cons, h2]
          · rw [if_neg h3]
            simp [List.filterMap_cons, h2]

theorem partition_tasks_sends {σ : Type _} (channels : Channels σ) :
    ∀ (ts : List Task) (acc : Partition),
      (ts.foldl (fun acc t => t.writes.foldl (partitionStep channels) acc)
          acc).sends =
        acc.sends ++ tasksSends ts := by
  intro ts
  induction ts with
  | nil =>
      intro acc
      simp [tasksSends]
  | cons t rest ih =>
      intro acc
      rw [List.foldl_cons, ih, partition_writes_sends]
      simp [tasksSends]

/-- C3 (amended): after a call to `apply_writes` in which some task has
non-empty `triggers` (a bump step), `pending_sends` holds exactly the values
written to the TASKS channel by the step's tasks, in sorted-task order — the
clear happens before the grouping loop appends TASKS writes, so it is empty
iff no task wrote to TASKS. -/
theorem apply_writes_pending_sends {σ : Type _} (checkpoint : Checkpoint)
    (channels : Channels σ) (tasks : List Task)
    (get_next_version : Option (GetNextVersion σ))
    (hbump : ∃ t ∈ tasks, t.triggers ≠ []) :
    (apply_writes checkpoint channels tasks
        get_next_version).checkpoint.pending_sends =
      tasksSends (sortTasks tasks) := by
  have hb : (sortTasks tasks).any (fun t => !t.triggers.isEmpty) = true := by
    obtain ⟨t, ht, hne⟩ := hbump
    refine List.any_eq_true.mpr ⟨t, ?_, ?_⟩
    · exact (List.perm_insertionSort taskLe tasks).mem_iff.mpr ht
    · simpa using hne
  simp only [apply_writes, hb]
  rw [partition_tasks_sends]
  simp

/-- C3 counterexample: a bump-step call to `apply_writes` whose task writes
to TASKS ends with non-empty `pending_sends`. -/
theorem apply_writes_pending_sends_counterexample :
    (∃ t ∈ [Task.mk [.pstr "a"] "A" [(TASKS, .vint 7)] ["t"]],
      t.triggers ≠ []) ∧
    (apply_writes
        { id := [], channel_versions := [], versions_seen := [],
          pending_sends := [] }
        ([] : Channels Unit)
        [Task.mk [.pstr "a"] "A" [(TASKS, .vint 7)] ["t"]]
        (some increment)).checkpoint.pending_sends ≠ [] := by
  constructor
  · exact ⟨Task.mk [.pstr "a"] "A" [(TASKS, .vint 7)] ["t"], by simp, by decide⟩
  · decide

/-- Witness for C3 at a concrete bump-step call. -/
theorem apply_writes_pending_sends_witness :
    (apply_writes
        { id := [], channel_versions := [], versions_seen := [],
          pending_sends := [.vstr "old"] }
        ([] : Channels Unit)
        [Task.mk [.pstr "a"] "A" [(TASKS, .vint 7)] ["t"]]
        (some increment)).checkpoint.pending_sends =
      tasksSends (sortTasks [Task.mk [.pstr "a"] "A" [(TASKS, .vint 7)] ["t"]]) :=
  apply_writes_pending_sends _ _ _ _
    ⟨Task.mk [.pstr "a"] "A" [(TASKS, .vint 7)] ["t"], by simp, by decide⟩

end Pregel

namespace Pregel

theorem alGet_eq_none_iff {β : Type _} (m : List (String × β)) (k : String) :
    alGet m k = none ↔ k ∉ alKeys m := by
  induction m with
  | nil => simp [alGet, alKeys]
  | cons p rest ih =>
      obtain ⟨a, b⟩ := p
      simp only [alGet, alKeys, List.map_cons, List.mem_cons]
      by_cases h : a = k
      · subst h
        simp
      · simp only [if_neg h, ih, alKeys]
        constructor
        · intro hk hor
          rcases hor with h1 | h1
          · exact h h1.symm
          · exact hk h1
        · intro hk h1
          exact hk (Or.inr h1)

theorem alKeys_consume_fold {σ : Type _} (gnv : Option (GetNextVersion σ))
    (m : Option Int) (l : List String) (st : Channels σ × VersionMap) :
    alKeys (l.foldl (consumeStep gnv m) st).1 = alKeys st.1 := by
  induction l generalizing st with
  | nil => rfl
  | cons c rest ih =>
      rw [List.foldl_cons, ih]
      unfold consumeStep
      cases hg : alGet st.1 c with
      | none => rfl
      | some ch =>
          dsimp only
          have hsome : (alGet st.1 c).isSome := by
            rw [hg]
            rfl
          rcases hcc : ch.consumeFn ch.state with ⟨s', flag⟩
          cases flag <;> cases gnv <;>
            exact alKeys_alSet_of_mem st.1 c _ hsome

theorem alKeys_update_fold {σ : Type _} (gnv : Option (GetNextVersion σ))
    (m : Option Int) (l : List (String × List Val))
    (st : Channels σ × VersionMap × List String) :
    alKeys (l.foldl (updateStep gnv m) st).1 = alKeys st.1 := by
  induction l generalizing st with
  | nil => rfl
  | cons pw rest ih =>
      rw [List.foldl_cons, ih]
      unfold updateStep
      cases hg : alGet st.1 pw.1 with
      | none => rfl
      | some ch =>
          dsimp only
          have hsome : (alGet st.1 pw.1).isSome := by
            rw [hg]
            rfl
          rcases hcc : ch.updateFn ch.state pw.2 with ⟨s', flag⟩
          cases flag <;> cases gnv <;>
            exact alKeys_alSet_of_mem st.1 pw.1 _ hsome

theorem alKeys_bump_fold {σ : Type _} (gnv : Option (GetNextVersion σ))
    (m : Option Int) (upd : List String) (l : List String)
    (st : Channels σ × VersionMap) :
    alKeys (l.foldl (bumpStep gnv m upd) st).1 = alKeys st.1 := by
  induction l generalizing st with
  | nil => rfl
  | cons c rest ih =>
      rw [List.foldl_cons, ih]
      unfold bumpStep
      by_cases hu : c ∈ upd
      · rw [if_pos hu]
      · rw [if_neg hu]
        cases hg : alGet st.1 c with
        | none => rfl
        | some ch =>
            dsimp only
            have hsome : (alGet st.1 c).isSome := by
              rw [hg]
              rfl
            rcases hcc : ch.updateFn ch.state [] with ⟨s', flag⟩
            cases flag <;> cases gnv <;>
              exact alKeys_alSet_of_mem st.1 c _ hsome

/-- Key preservation: `apply_writes` never adds or removes channels: it mutates the states of
existing channels only. -/
theorem apply_writes_channels_keys {σ : Type _} (checkpoint : Checkpoint)
    (channels : Channels σ) (tasks : List Task)
    (get_next_version : Option (GetNextVersion σ)) :
    alKeys (apply_writes checkpoint channels tasks get_next_version).channels
      = alKeys channels := by
  simp only [apply_writes]
  split
  · rw [alKeys_bump_fold, alKeys_update_fold, alKeys_consume_fold]
  · rw [alKeys_update_fold, alKeys_consume_fold]

/-- The values a task list writes to a (managed) key, in order. -/
def managedVals (chan : String) (ts : List Task) : List Val :=
  ts.flatMap (fun t =>
    t.writes.filterMap (fun w => if w.1 = chan then some w.2 else none))

theorem partition_writes_managed {σ : Type _} (channels : Channels σ)
    (chan : String)
    (hp : ¬(chan = NO_WRITES ∨ chan = PUSH ∨ chan = RESUME ∨
      chan = INTERRUPT ∨ chan = RETURN ∨ chan = ERROR))
    (ht : chan ≠ TASKS) (hc : alGet channels chan = none) :
    ∀ (ws : List (String × Val)) (acc : Partition),
      alGet (ws.foldl (partitionStep channels) acc).byManaged chan =
        (if ws.filterMap (fun w => if w.1 = chan then some w.2 else none) = []
         then alGet acc.byManaged chan
         else some ((alGet acc.byManaged chan).getD [] ++
           ws.filterMap (fun w => if w.1 = chan then some w.2 else none))) := by
  intro ws
  induction ws with
  | nil =>
      intro acc
      simp
  | cons w rest ih =>
      intro acc
      rw [List.foldl_cons, ih]
      unfold partitionStep
      by_cases h1 : w.1 = NO_WRITES ∨ w.1 = PUSH ∨ w.1 = RESUME ∨
          w.1 = INTERRUPT ∨ w.1 = RETURN ∨ w.1 = ERROR
      · have hne : ¬ w.1 = chan := by
          intro he
          rw [he] at h1
          exact hp h1
        rw [if_pos h1]
        simp only [List.filterMap_cons]
        rw [show (if w.1 = chan then some w.2 else none) = none from if_neg hne]
      · rw [if_neg h1]
        by_cases h2 : w.1 = TASKS
        · have hne : ¬ w.1 = chan := by
            intro he
            rw [he] at h2
            exact ht h2
          rw [if_pos h2]
          simp only [List.filterMap_cons]
          rw [show (if w.1 = chan then some w.2 else none) = none from
            if_neg hne]
        · rw [if_neg h2]
          by_cases h3 : (alGet channels w.1).isSome
          · have hne : ¬ w.1 = chan := by
              intro he
              rw [he, hc] at h3
              exact absurd h3 (by simp)
            rw [if_pos h3]
            simp only [List.filterMap_cons]
            rw [show (if w.1 = chan then some w.2 else none) = none from
              if_neg hne]
          · rw [if_neg h3]
            by_cases hne : w.1 = chan
            · simp only [List.filterMap_cons]
              rw [show (if w.1 = chan then some w.2 else none) = some w.2 from
                if_pos hne]
              rw [hne]
              rw [alGet_alSet_same]
              by_cases hr :
                  rest.filterMap
                    (fun w => if w.1 = chan then some w.2 else none) = []
              · simp [hr]
              · simp [hr]
            · simp only [List.filterMap_cons]
              rw [show (if w.1 = chan then some w.2 else none) = none from
                if_neg hne]
              rw [alGet_alSet_ne _ _ hne]
  
theorem partition_tasks_managed {σ : Type _} (channels : Channels σ)
    (chan : String)
    (hp : ¬(chan = NO_WRITES ∨ chan = PUSH ∨ chan = RESUME ∨
      chan = INTERRUPT ∨ chan = RETURN ∨ chan = ERROR))
    (ht : chan ≠ TASKS) (hc : alGet channels chan = none) :
    ∀ (ts : List Task) (acc : Partition),
      alGet (ts.foldl
          (fun acc t => t.writes.foldl (partitionStep channels) acc)
          acc).byManaged chan =
        (if managedVals chan ts = [] then alGet acc.byManaged chan
         else some ((alGet acc.byManaged chan).getD [] ++
           managedVals chan ts)) := by
  intro ts
  induction ts with
  | nil =>
      intro acc
      simp [managedVals]
  | cons t rest ih =>
      intro acc
      rw [List.foldl_cons, ih, partition_writes_managed channels chan hp ht hc]
      simp only [managedVals, List.flatMap_cons]
      by_cases h1 :
          t.writes.filterMap
            (fun w => if w.1 = chan then some w.2 else none) = []
      · rw [h1]
        simp [managedVals]
      · rw [if_neg h1]
        by_cases h2 :
            rest.flatMap (fun t => t.writes.filterMap
              (fun w => if w.1 = chan then some w.2 else none)) = []
      
        · simp [managedVals, h2, h1]
        · simp [managedVals, h2, h1]

end Pregel

namespace Pregel

theorem apply_writes_managed_eq {σ : Type _} (checkpoint : Checkpoint)
    (channels : Channels σ) (tasks : List Task)
    (get_next_version : Option (GetNextVersion σ)) (chan : String)
    (hp : ¬(chan = NO_WRITES ∨ chan = PUSH ∨ chan = RESUME ∨
      chan = INTERRUPT ∨ chan = RETURN ∨ chan = ERROR))
    (ht : chan ≠ TASKS) (hc : alGet channels chan = none) :
    alGet (apply_writes checkpoint channels tasks get_next_version).managed
        chan =
      (if managedVals chan (sortTasks tasks) = [] then none
       else some (managedVals chan (sortTasks tasks))) := by
  simp only [apply_writes]
  have hc1 : alGet ((consumeChans channels (sortTasks tasks)).foldl
      (consumeStep get_next_version (maxVer checkpoint.channel_versions))
      (channels, checkpoint.channel_versions)).1 chan = none := by
    rw [alGet_eq_none_iff, alKeys_consume_fold]
    exact (alGet_eq_none_iff channels chan).mp hc
  rw [partition_tasks_managed _ chan hp ht hc1]
  simp [alGet]

/-- C8: a write `(chan, val)` whose channel is neither a pseudo-channel nor
TASKS nor a key of `channels` is returned by `apply_writes` in the managed
mapping, as `chan ↦ [vals...]` in (sorted) task order, and no channel is
created or touched for it: the result has no channel entry at `chan` and the
channel key set is unchanged. -/
theorem apply_writes_managed_segregation {σ : Type _} (checkpoint : Checkpoint)
    (channels : Channels σ) (tasks : List Task)
    (get_next_version : Option (GetNextVersion σ)) (chan : String)
    (hp : ¬(chan = NO_WRITES ∨ chan = PUSH ∨ chan = RESUME ∨
      chan = INTERRUPT ∨ chan = RETURN ∨ chan = ERROR))
    (ht : chan ≠ TASKS) (hc : alGet channels chan = none)
    (hne : managedVals chan (sortTasks tasks) ≠ []) :
    alGet (apply_writes checkpoint channels tasks get_next_version).managed
        chan = some (managedVals chan (sortTasks tasks)) ∧
    alGet (apply_writes checkpoint channels tasks get_next_version).channels
        chan = none ∧
    alKeys (apply_writes checkpoint channels tasks get_next_version).channels
      = alKeys channels := by
  have hkeys := apply_writes_channels_keys checkpoint channels tasks
    get_next_version
  refine ⟨?_, ?_, hkeys⟩
  · rw [apply_writes_managed_eq checkpoint channels tasks get_next_version
      chan hp ht hc, if_neg hne]
  · rw [alGet_eq_none_iff, hkeys, ← alGet_eq_none_iff]
    exact hc

/-- The concrete task of scenario S5: writes `[("mv", 1), ("out", 2)]`. -/
def taskS5 : Task :=
  { path := [.pstr "a"], name := "A",
    writes := [("mv", .vint 1), ("out", .vint 2)], triggers := ["in"] }

/-- A concrete appending channel used by the S5 witness. -/
def topicChannel (s : List Val) : Channel (List Val) :=
  { state := s,
    updateFn := fun st vs => (st ++ vs, !vs.isEmpty),
    consumeFn := fun st => (st, false),
    readFn := fun st => st.head? }

/-- The concrete channel set of scenario S5: `out` present, `mv` absent. -/
def chansS5 : Channels (List Val) :=
  [("in", topicChannel [.vstr "x"]), ("out", topicChannel [])]

/-- The concrete checkpoint of scenario S5. -/
def cpS5 : Checkpoint :=
  { id := [], channel_versions := [("in", 1)], versions_seen := [],
    pending_sends := [] }

/-- Witness for C8 at scenario S5, including the concrete outcomes: the
returned managed mapping is exactly `{"mv": [1]}` and `channels["out"]`
received exactly `[2]`. -/
theorem apply_writes_managed_segregation_witness :
    (alGet (apply_writes cpS5 chansS5 [taskS5] (some increment)).managed "mv"
        = some (managedVals "mv" (sortTasks [taskS5])) ∧
      alGet (apply_writes cpS5 chansS5 [taskS5]
          (some increment)).channels "mv" = none ∧
      alKeys (apply_writes cpS5 chansS5 [taskS5] (some increment)).channels
        = alKeys chansS5) ∧
    (apply_writes cpS5 chansS5 [taskS5] (some increment)).managed
      = [("mv", [Val.vint 1])] ∧
    (alGet (apply_writes cpS5 chansS5 [taskS5]
        (some increment)).channels "out").map Channel.state
      = some [Val.vint 2] := by
  refine ⟨apply_writes_managed_segregation cpS5 chansS5 [taskS5]
    (some increment) "mv" (by decide) (by decide) rfl (by decide), ?_, ?_⟩
  · rfl
  · rfl

end Pregel

namespace Pregel

theorem alGet_mem {β : Type _} (m : List (String × β)) (k : String) (v : β)
    (h : alGet m k = some v) : (k, v) ∈ m := by
  induction m with
  | nil => cases h
  | cons p rest ih =>
      obtain ⟨a, b⟩ := p
      have h' : (if a = k then some b else alGet rest k) = some v := h
      by_cases ha : a = k
      · rw [if_pos ha] at h'
        obtain rfl := ha
        obtain rfl : b = v := by injection h'
        exact List.mem_cons_self _ _
      · rw [if_neg ha] at h'
        exact List.mem_cons_of_mem _ (ih h')

theorem foldl_max_init (l : List Int) (v : Int) : v ≤ l.foldl max v := by
  induction l generalizing v with
  | nil => simp
  | cons a rest ih =>
      rw [List.foldl_cons]
      exact le_trans (le_max_left v a) (ih (max v a))

theorem foldl_max_mem (l : List Int) (v x : Int) (hx : x ∈ l) :
    x ≤ l.foldl max v := by
  induction l generalizing v with
  | nil => cases hx
  | cons a rest ih =>
      rw [List.foldl_cons]
      rcases List.mem_cons.mp hx with rfl | h
      · exact le_trans (le_max_right v x) (foldl_max_init rest _)
      · exact ih _ h

theorem maxVer_ge (vs : VersionMap) (c : String) (w m : Int)
    (hg : alGet vs c = some w) (hm : maxVer vs = some m) : w ≤ m := by
  have hmem : (c, w) ∈ vs := alGet_mem vs c w hg
  have hw : w ∈ vs.map Prod.snd := List.mem_map.mpr ⟨(c, w), hmem, rfl⟩
  unfold maxVer at hm
  cases hv : vs.map Prod.snd with
  | nil =>
      rw [hv] at hw
      cases hw
  | cons v0 rest =>
      rw [hv] at hm hw
      obtain rfl : rest.foldl max v0 = m := by injection hm
      rcases List.mem_cons.mp hw with rfl | h
      · exact foldl_max_init rest w
      · exact foldl_max_mem rest v0 w h

theorem maxVer_none_iff (vs : VersionMap) : maxVer vs = none ↔ vs = [] := by
  unfold maxVer
  cases vs with
  | nil => simp
  | cons p rest => simp

/-- Pointwise version dominance between two version maps: every binding of
the first is present in the second with a version at least as large. -/
def VerLE (v1 v2 : VersionMap) : Prop :=
  ∀ c w, alGet v1 c = some w → ∃ w', alGet v2 c = some w' ∧ w ≤ w'

theorem verLE_refl (v : VersionMap) : VerLE v v :=
  fun c w h => ⟨w, h, le_refl w⟩

theorem verLE_alSet (vs0 acc : VersionMap) (hacc : VerLE vs0 acc) (c : String)
    (val : Int) (hval : ∀ w, alGet vs0 c = some w → w ≤ val) :
    VerLE vs0 (alSet acc c val) := by
  intro c0 w0 h0
  rw [alGet_alSet]
  by_cases he : c = c0
  · refine ⟨val, by rw [if_pos he], ?_⟩
    subst he
    exact hval w0 h0
  · obtain ⟨w', hw', hle⟩ := hacc c0 w0 h0
    exact ⟨w', by rw [if_neg he]; exact hw', hle⟩

theorem verLE_consume_fold {σ : Type _} (f : GetNextVersion σ) (m : Option Int)
    (vs0 : VersionMap)
    (hval : ∀ (ch : Channel σ) (c : String) (w : Int),
      alGet vs0 c = some w → w ≤ f m ch) :
    ∀ (l : List String) (st : Channels σ × VersionMap), VerLE vs0 st.2 →
      VerLE vs0 (l.foldl (consumeStep (some f) m) st).2 := by
  intro l
  induction l with
  | nil =>
      intro st h
      exact h
  | cons c rest ih =>
      intro st h
      rw [List.foldl_cons]
      apply ih
      unfold consumeStep
      cases hg : alGet st.1 c with
      | none => exact h
      | some ch =>
          dsimp only
          rcases hcc : ch.consumeFn ch.state with ⟨s', flag⟩
          cases flag
          · exact h
          · exact verLE_alSet vs0 st.2 h c _ (fun w hw => hval _ c w hw)

theorem verLE_update_fold {σ : Type _} (f : GetNextVersion σ) (m : Option Int)
    (vs0 : VersionMap)
    (hval : ∀ (ch : Channel σ) (c : String) (w : Int),
      alGet vs0 c = some w → w ≤ f m ch) :
    ∀ (l : List (String × List Val))
      (st : Channels σ × VersionMap × List String), VerLE vs0 st.2.1 →
      VerLE vs0 (l.foldl (updateStep (some f) m) st).2.1 := by
  intro l
  induction l with
  | nil =>
      intro st h
      exact h
  | cons pw rest ih =>
      intro st h
      rw [List.foldl_cons]
      apply ih
      unfold updateStep
      cases hg : alGet st.1 pw.1 with
      | none => exact h
      | some ch =>
          dsimp only
          rcases hcc : ch.updateFn ch.state pw.2 with ⟨s', flag⟩
          cases flag
          · exact h
          · exact verLE_alSet vs0 st.2.1 h pw.1 _ (fun w hw => hval _ pw.1 w hw)

theorem verLE_bump_fold {σ : Type _} (f : GetNextVersion σ) (m : Option Int)
    (vs0 : VersionMap) (upds : List String)
    (hval : ∀ (ch : Channel σ) (c : String) (w : Int),
      alGet vs0 c = some w → w ≤ f m ch) :
    ∀ (l : List String) (st : Channels σ × VersionMap), VerLE vs0 st.2 →
      VerLE vs0 (l.foldl (bumpStep (some f) m upds) st).2 := by
  intro l
  induction l with
  | nil =>
      intro st h
      exact h
  | cons c rest ih =>
      intro st h
      rw [List.foldl_cons]
      apply ih
      unfold bumpStep
      by_cases hu : c ∈ upds
      · rw [if_pos hu]
        exact h
      · rw [if_neg hu]
        cases hg : alGet st.1 c with
        | none => exact h
        | some ch =>
            dsimp only
            rcases hcc : ch.updateFn ch.state [] with ⟨s', flag⟩
            cases flag
            · exact h
            · exact verLE_alSet vs0 st.2 h c _ (fun w hw => hval _ c w hw)

theorem seenInner_origin (cv : VersionMap) :
    ∀ (trigs : List String) (cur : VersionMap) (c : String) (v : Int),
      alGet (trigs.foldl (fun m chan =>
        match alGet cv chan with
        | some vv => alSet m chan vv
        | none => m) cur) c = some v →
      alGet cv c = some v ∨ alGet cur c = some v := by
  intro trigs
  induction trigs with
  | nil =>
      intro cur c v h
      exact Or.inr h
  | cons t rest ih =>
      intro cur c v h
      rw [List.foldl_cons] at h
      rcases ih _ c v h with h1 | h1
      · exact Or.inl h1
      · cases hg : alGet cv t with
        | none =>
            rw [hg] at h1
            exact Or.inr h1
        | some vv =>
            rw [hg] at h1
            rw [alGet_alSet] at h1
            by_cases he : t = c
            · rw [if_pos he] at h1
              obtain rfl : vv = v := by injection h1
              exact Or.inl (he ▸ hg)
            · rw [if_neg he] at h1
              exact Or.inr h1

theorem seenPass_origin (cv : VersionMap) :
    ∀ (ts : List Task) (seen : List (String × VersionMap)) (n : String)
      (inner : VersionMap) (c : String) (v : Int),
      alGet (seenPass cv seen ts) n = some inner → alGet inner c = some v →
      alGet cv c = some v ∨
        ∃ inner0, alGet seen n = some inner0 ∧ alGet inner0 c = some v := by
  intro ts
  induction ts with
  | nil =>
      intro seen n inner c v h1 h2
      exact Or.inr ⟨inner, h1, h2⟩
  | cons t rest ih =>
      intro seen n inner c v h1 h2
      have hstep : seenPass cv seen (t :: rest) =
          seenPass cv (seenUpdateOne cv seen t) rest := rfl
      rw [hstep] at h1
      rcases ih _ n inner c v h1 h2 with h | ⟨inner0, hi0, hc0⟩
      · exact Or.inl h
      · unfold seenUpdateOne at hi0
        rw [alGet_alSet] at hi0
        by_cases he : t.name = n
        · rw [if_pos he] at hi0
          obtain rfl : _ = inner0 := by injection hi0
          rcases seenInner_origin cv t.triggers _ c v hc0 with h | h
          · exact Or.inl h
          · cases hg : alGet seen t.name with
            | none =>
                rw [hg] at h
                simp [alGet] at h
            | some inner1 =>
                rw [hg] at h
                simp only [Option.getD_some] at h
                exact Or.inr ⟨inner1, he ▸ hg, h⟩
        · rw [if_neg he] at hi0
          exact Or.inr ⟨inner0, hi0, hc0⟩

end Pregel

namespace Pregel

theorem verLE_all_passes {σ : Type _} (f : GetNextVersion σ)
    (hmono : ∀ (m : Int) (ch : Channel σ), m < f (some m) ch)
    (cv : VersionMap) (chs : Channels σ) (consumeL : List String)
    (updL : List (String × List Val)) (bumpL upds : List String)
    (bumpB : Bool) (st1 : Channels σ × VersionMap)
    (hst1 : st1 = consumeL.foldl (consumeStep (some f) (maxVer cv)) (chs, cv))
    (st2 : Channels σ × VersionMap × List String)
    (hst2 : st2 = updL.foldl (updateStep (some f) (maxVer st1.2))
      (st1.1, st1.2, [])) :
    VerLE cv
      ((if bumpB then
          bumpL.foldl (bumpStep (some f) (maxVer st1.2) upds)
            (st2.1, st2.2.1)
        else (st2.1, st2.2.1)).2) := by
  have hvalA : ∀ (ch : Channel σ) (c : String) (w : Int),
      alGet cv c = some w → w ≤ f (maxVer cv) ch := by
    intro ch c w hw
    cases hm : maxVer cv with
    | none =>
        rw [maxVer_none_iff] at hm
        rw [hm] at hw
        cases hw
    | some mx =>
        have ha := maxVer_ge cv c w mx hw hm
        have hb := hmono mx ch
        omega
  have h1le : VerLE cv st1.2 := by
    rw [hst1]
    exact verLE_consume_fold f (maxVer cv) cv hvalA consumeL (chs, cv)
      (verLE_refl cv)
  have hvalB : ∀ (ch : Channel σ) (c : String) (w : Int),
      alGet cv c = some w → w ≤ f (maxVer st1.2) ch := by
    intro ch c w hw
    obtain ⟨w', hw', hle⟩ := h1le c w hw
    cases hm : maxVer st1.2 with
    | none =>
        rw [maxVer_none_iff] at hm
        rw [hm] at hw'
        cases hw'
    | some mx =>
        have ha := maxVer_ge st1.2 c w' mx hw' hm
        have hb := hmono mx ch
        omega
  have h2le : VerLE cv st2.2.1 := by
    rw [hst2]
    exact verLE_update_fold f (maxVer st1.2) cv hvalB updL (st1.1, st1.2, [])
      h1le
  cases bumpB with
  | false => simpa using h2le
  | true =>
      simp only [if_true]
      exact verLE_bump_fold f (maxVer st1.2) cv upds hvalB bumpL
        (st2.1, st2.2.1) h2le

/-- The versions-seen upper bound: every version a node has seen on a channel
is bounded by that channel's current version (spec invariant 2). -/
def SeenLE (seen : List (String × VersionMap)) (vers : VersionMap) : Prop :=
  ∀ n inner, alGet seen n = some inner → ∀ c v, alGet inner c = some v →
    ∃ w, alGet vers c = some w ∧ v ≤ w

/-- C4: `apply_writes` preserves the versions-seen upper bound for every
monotonically increasing `get_next_version` function: seen entries are only
ever set to current channel versions, and channel versions only advance past
the running maximum. -/
theorem apply_writes_seen_bound {σ : Type _} (checkpoint : Checkpoint)
    (channels : Channels σ) (tasks : List Task) (f : GetNextVersion σ)
    (hpre : SeenLE checkpoint.versions_seen checkpoint.channel_versions)
    (hmono : ∀ (m : Int) (ch : Channel σ), m < f (some m) ch) :
    SeenLE
      (apply_writes checkpoint channels tasks
        (some f)).checkpoint.versions_seen
      (apply_writes checkpoint channels tasks
        (some f)).checkpoint.channel_versions := by
  intro n inner h1 c v h2
  simp only [apply_writes] at h1 ⊢
  set ts := sortTasks tasks with hts
  set cv := checkpoint.channel_versions with hcv
  set st1 := (consumeChans channels ts).foldl
    (consumeStep (some f) (maxVer cv)) (channels, cv) with hst1
  set bumpB := ts.any (fun t => !t.triggers.isEmpty) with hbump
  set part := ts.foldl
    (fun acc t => t.writes.foldl (partitionStep st1.1) acc)
    { byChannel := [], byManaged := [],
      sends := if bumpB then [] else checkpoint.pending_sends } with hpart
  set st2 := part.byChannel.foldl (updateStep (some f) (maxVer st1.2))
    (st1.1, st1.2, []) with hst2
  have hver := verLE_all_passes f hmono cv channels (consumeChans channels ts)
    part.byChannel (alKeys st2.1) st2.2.2 bumpB st1 hst1 st2 hst2
  rcases seenPass_origin cv ts checkpoint.versions_seen n inner c v h1 h2 with
    h | ⟨inner0, hi0, hc0⟩
  · exact hver c v h
  · obtain ⟨w0, hw0, hle0⟩ := hpre n inner0 hi0 c v hc0
    obtain ⟨w1, hw1, hle1⟩ := hver c w0 hw0
    exact ⟨w1, hw1, le_trans hle0 hle1⟩

/-- Witness for C4 at a concrete checkpoint, channel set, task and the
default `increment` versioning function. -/
theorem apply_writes_seen_bound_witness :
    SeenLE
      (apply_writes
        { id := [], channel_versions := [("in", 1)], versions_seen := [],
          pending_sends := [] }
        [("in", topicChannel [])]
        [Task.mk [.pstr "a"] "A" [(TASKS, .vint 7)] ["in"]]
        (some increment)).checkpoint.versions_seen
      (apply_writes
        { id := [], channel_versions := [("in", 1)], versions_seen := [],
          pending_sends := [] }
        [("in", topicChannel [])]
        [Task.mk [.pstr "a"] "A" [(TASKS, .vint 7)] ["in"]]
        (some increment)).checkpoint.channel_versions :=
  apply_writes_seen_bound _ _ _ increment
    (by
      intro n inner h
      cases h)
    (by
      intro m ch
      show m < m + 1
      omega)

end Pregel

namespace Pregel

/-- Truncating a task's path to `path[:3]`: the part of the path the sort key
and the task identity use. -/
def stripTask (t : Task) : Task := { t with path := t.path.take 3 }

theorem taskKey_strip (t : Task) : taskKey (stripTask t) = taskKey t := by
  unfold taskKey stripTask
  simp [List.take_take]

theorem taskLe_strip_iff (a b : Task) :
    taskLe (stripTask a) (stripTask b) ↔ taskLe a b := by
  unfold taskLe taskCmp
  rw [taskKey_strip, taskKey_strip]

theorem orderedInsert_strip (a : Task) (l : List Task) :
    List.orderedInsert taskLe (stripTask a) (l.map stripTask) =
      (List.orderedInsert taskLe a l).map stripTask := by
  induction l with
  | nil => rfl
  | cons b rest ih =>
      simp only [List.map_cons, List.orderedInsert]
      by_cases h : taskLe a b
      · rw [if_pos ((taskLe_strip_iff a b).mpr h), if_pos h]
        simp
      · rw [if_neg (fun hh => h ((taskLe_strip_iff a b).mp hh)), if_neg h]
        simp only [List.map_cons, ih]

theorem sortTasks_map_strip (l : List Task) :
    sortTasks (l.map stripTask) = (sortTasks l).map stripTask := by
  unfold sortTasks
  induction l with
  | nil => rfl
  | cons a rest ih =>
      simp only [List.map_cons, List.insertionSort]
      rw [ih, orderedInsert_strip]

theorem any_triggers_strip (ts : List Task) :
    (ts.map stripTask).any (fun t => !t.triggers.isEmpty) =
      ts.any (fun t => !t.triggers.isEmpty) := by
  rw [List.any_map]
  rfl

theorem flatMap_triggers_strip (ts : List Task) :
    (ts.map stripTask).flatMap Task.triggers = ts.flatMap Task.triggers := by
  induction ts with
  | nil => rfl
  | cons t rest ih =>
      simp only [List.map_cons, List.flatMap_cons, ih]
      rfl

theorem consumeChans_strip {σ : Type _} (chans : Channels σ) (ts : List Task) :
    consumeChans chans (ts.map stripTask) = consumeChans chans ts := by
  unfold consumeChans
  rw [flatMap_triggers_strip]

theorem seenPass_strip (cv : VersionMap) (seen : List (String × VersionMap))
    (ts : List Task) :
    seenPass cv seen (ts.map stripTask) = seenPass cv seen ts := by
  unfold seenPass
  rw [List.foldl_map]
  rfl

theorem partitionFold_strip {σ : Type _} (chans : Channels σ) (acc : Partition)
    (ts : List Task) :
    (ts.map stripTask).foldl
        (fun acc t => t.writes.foldl (partitionStep chans) acc) acc =
      ts.foldl (fun acc t => t.writes.foldl (partitionStep chans) acc) acc := by
  rw [List.foldl_map]
  rfl

/-- Path parts beyond the third never influence `apply_writes`: truncating
every task path to `path[:3]` leaves the result unchanged. -/
theorem apply_writes_strip {σ : Type _} (checkpoint : Checkpoint)
    (channels : Channels σ) (tasks : List Task)
    (g : Option (GetNextVersion σ)) :
    apply_writes checkpoint channels (tasks.map stripTask) g =
      apply_writes checkpoint channels tasks g := by
  unfold apply_writes
  rw [sortTasks_map_strip]
  generalize sortTasks tasks = ts
  simp only [any_triggers_strip, consumeChans_strip, seenPass_strip,
    partitionFold_strip]

/-- Permutations of the task list with pairwise distinct `path[:3]` sort keys
give identical `apply_writes` results: the stable sort output coincides. -/
theorem apply_writes_perm_eq {σ : Type _} (checkpoint : Checkpoint)
    (channels : Channels σ) (t1 t2 : List Task)
    (g : Option (GetNextVersion σ)) (hp : t1.Perm t2)
    (hk : t1.Pairwise (fun a b => taskCmp a b ≠ .eq)) :
    apply_writes checkpoint channels t1 g =
      apply_writes checkpoint channels t2 g := by
  unfold apply_writes
  rw [show sortTasks t1 = sortTasks t2 from sortTasks_perm_eq t1 t2 hp hk]

/-- C2 (amended): permuting the input `tasks` of `apply_writes` leaves the
resulting checkpoint and channel states identical provided the tasks'
`path[:3]` sort keys are pairwise distinct (Python's sort is stable, so on
tied keys the result follows input order instead); and path parts beyond the
third never influence the result. -/
theorem apply_writes_sort_stability :
    (∀ (σ : Type) (checkpoint : Checkpoint) (channels : Channels σ)
        (t1 t2 : List Task) (g : Option (GetNextVersion σ)),
        t1.Perm t2 → t1.Pairwise (fun a b => taskCmp a b ≠ .eq) →
        apply_writes checkpoint channels t1 g =
          apply_writes checkpoint channels t2 g) ∧
    (∀ (σ : Type) (checkpoint : Checkpoint) (channels : Channels σ)
        (tasks : List Task) (g : Option (GetNextVersion σ)),
        apply_writes checkpoint channels (tasks.map stripTask) g =
          apply_writes checkpoint channels tasks g) :=
  ⟨fun _ cp chans t1 t2 g hp hk => apply_writes_perm_eq cp chans t1 t2 g hp hk,
   fun _ cp chans tasks g => apply_writes_strip cp chans tasks g⟩

/-- C2 counterexample: two tasks with identical `path[:3]` sort keys, swapped
— a permutation — leave different channel states behind, because the stable
sort preserves their input order and the channel update is order-sensitive. -/
theorem apply_writes_sort_counterexample :
    ([Task.mk [.pstr "a"] "A" [("c", .vint 1)] ["t"],
      Task.mk [.pstr "a"] "B" [("c", .vint 2)] []].Perm
     [Task.mk [.pstr "a"] "B" [("c", .vint 2)] [],
      Task.mk [.pstr "a"] "A" [("c", .vint 1)] ["t"]]) ∧
    taskKey (Task.mk [.pstr "a"] "A" [("c", .vint 1)] ["t"]) =
      taskKey (Task.mk [.pstr "a"] "B" [("c", .vint 2)] []) ∧
    (alGet (apply_writes
        { id := [], channel_versions := [("c", 1)], versions_seen := [],
          pending_sends := [] }
        [("c", topicChannel [])]
        [Task.mk [.pstr "a"] "A" [("c", .vint 1)] ["t"],
         Task.mk [.pstr "a"] "B" [("c", .vint 2)] []]
        (some increment)).channels "c").map Channel.state ≠
      (alGet (apply_writes
        { id := [], channel_versions := [("c", 1)], versions_seen := [],
          pending_sends := [] }
        [("c", topicChannel [])]
        [Task.mk [.pstr "a"] "B" [("c", .vint 2)] [],
         Task.mk [.pstr "a"] "A" [("c", .vint 1)] ["t"]]
        (some increment)).channels "c").map Channel.state := by
  refine ⟨List.Perm.swap _ _ _, rfl, ?_⟩
  decide

/-- Witness for C2 at two concrete tasks with distinct sort keys. -/
theorem apply_writes_sort_stability_witness :
    apply_writes
        { id := [], channel_versions := [("c", 1)], versions_seen := [],
          pending_sends := [] }
        [("c", topicChannel [])]
        [Task.mk [.pstr "a"] "A" [("c", .vint 1)] ["t"],
         Task.mk [.pstr "b"] "B" [("c", .vint 2)] []]
        (some increment) =
      apply_writes
        { id := [], channel_versions := [("c", 1)], versions_seen := [],
          pending_sends := [] }
        [("c", topicChannel [])]
        [Task.mk [.pstr "b"] "B" [("c", .vint 2)] [],
         Task.mk [.pstr "a"] "A" [("c", .vint 1)] ["t"]]
        (some increment) :=
  apply_writes_sort_stability.1 (List Val) _ _ _ _ (some increment)
    (List.Perm.swap _ _ _)
    (by
      refine List.Pairwise.cons ?_ ?_
      · intro b hb
        rw [List.mem_singleton] at hb
        subst hb
        decide
      · refine List.Pairwise.cons ?_ List.Pairwise.nil
        intro b hb
        cases hb)

end Pregel

namespace Pregel

theorem isEmpty_false_of_ne {α : Type _} (l : List α) (h : l ≠ []) :
    l.isEmpty = false := by
  cases l with
  | nil => exact absurd rfl h
  | cons a t => rfl

/-- C1 (amended): provided the null version is defined (`channel_versions`
non-empty), the PULL branch of `prepare_single_task` prepares a task for a
registered process `name` iff some trigger channel is readable with
`channel_versions[chan] > versions_seen[name][chan]` (null defaults on both
sides) AND `_proc_input` yields an input value — the extra conjunct is forced
by the input-suppression path (`StopIteration` → no task). -/
theorem prepare_pull_iff {σ : Type _} (checkpoint : Checkpoint)
    (processes : List (String × PregelNode)) (channels : Channels σ)
    (managed : List (String × Val)) (parent_ns : String) (step : Int)
    (name : String) (proc : PregelNode)
    (hreg : alGet processes name = some proc)
    (hcv : checkpoint.channel_versions ≠ []) :
    (∃ t, prepare_single_task_pull checkpoint processes channels managed
        parent_ns step name = .ok (some t)) ↔
      (triggeredChannels checkpoint channels proc
          ((alGet checkpoint.versions_seen name).getD []) ≠ [] ∧
        ∃ v, _proc_input proc managed channels = .ok (some v)) := by
  simp only [prepare_single_task_pull]
  rw [hreg]
  rw [isEmpty_false_of_ne _ hcv]
  dsimp only
  by_cases htr : triggeredChannels checkpoint channels proc
      ((alGet checkpoint.versions_seen name).getD []) = []
  · rw [htr]
    simp
  · rw [isEmpty_false_of_ne _ htr]
    cases hpi : _proc_input proc managed channels with
    | error e => simp [htr]
    | ok o =>
        cases o with
        | none => simp [htr]
        | some v => simp [htr]

/-- The concrete process of the C1 counterexample: triggered by `in` but
reading its input from the unrelated channel `other`. -/
def procC1 : PregelNode := { triggers := ["in"], channels := .inr ["other"] }

/-- A concrete readable channel holding a value (state is the read result). -/
def optChannel (s : Option Val) : Channel (Option Val) :=
  { state := s,
    updateFn := fun st _ => (st, true),
    consumeFn := fun st => (st, false),
    readFn := fun st => st }

/-- The concrete checkpoint of the C1 counterexample: `in` at version 1,
nothing seen. -/
def cpC1 : Checkpoint :=
  { id := [], channel_versions := [("in", 1)], versions_seen := [],
    pending_sends := [] }

/-- The concrete channels of the C1 counterexample: `in` readable, `other`
empty. -/
def chansC1 : Channels (Option Val) :=
  [("in", optChannel (some (.vstr "x"))), ("other", optChannel none)]

/-- C1 counterexample: a trigger channel of `A` satisfies the version and
readability condition, yet no PULL task is prepared, because `_proc_input`
yields nothing (every channel in `proc.channels` is empty). -/
theorem prepare_pull_counterexample :
    triggeredChannels cpC1 chansC1 procC1
        ((alGet cpC1.versions_seen "A").getD []) ≠ [] ∧
    prepare_single_task_pull cpC1 [("A", procC1)] chansC1 [] "" (-1) "A" =
      .ok none := by
  constructor
  · decide
  · rfl

/-- The concrete process of the C1 witness: input read from the trigger. -/
def procC1w : PregelNode := { triggers := ["in"], channels := .inr ["in"] }

/-- Witness for C1 at a concrete registered process with a non-empty version
map. -/
theorem prepare_pull_iff_witness :
    (∃ t, prepare_single_task_pull cpC1 [("A", procC1w)] chansC1 [] "" (-1)
        "A" = .ok (some t)) ↔
      (triggeredChannels cpC1 chansC1 procC1w
          ((alGet cpC1.versions_seen "A").getD []) ≠ [] ∧
        ∃ v, _proc_input procC1w [] chansC1 = .ok (some v)) :=
  prepare_pull_iff cpC1 [("A", procC1w)] chansC1 [] "" (-1) "A" procC1w rfl
    (by decide)

end Pregel
